import Mathlib

/-!
Verification of the sonus client audio pipeline.

The definitions below are a shallow embedding of the repository's core
logic: the PCM16 batch encoder (`floatTo16BitPCM`, `base64EncodeAudio`),
the periodic audio-chunk extraction loop, the recording controller's
start/stop state handling, and the metering normalisation, all translated
from the TypeScript/JavaScript sources.  Machine bytes are `Fin 256`,
audio samples are exact rationals, and stateful code becomes explicit
state-passing functions.
-/

namespace Sonus

/-! ## PCM encoder (floatTo16BitPCM)

The JS function clamps each sample to [-1, 1], scales by 0x8000 for
negative samples and 0x7fff otherwise, and stores the result with
`DataView.setInt16(offset, value, true)`.  Per the ECMA-262 `ToInt16`
conversion, the value is truncated toward zero and reduced mod 2^16;
the two bytes are written little-endian. -/

/-- The clamp `Math.max(-1, Math.min(1, s))` of a sample to [-1, 1]. -/
def clampSample (v : ℚ) : ℚ := max (-1) (min 1 v)

/-- Truncation toward zero of `s * k`, computed on the numerator and
denominator so that it evaluates by kernel reduction. -/
def truncRatMul (s : ℚ) (k : Int) : Int :=
  let a := s.num * k
  if a < 0 then -((-a) / (s.den : Int)) else a / (s.den : Int)

/-- ECMAScript ToIntegerOrInfinity on a finite value: truncation toward
zero, phrased with floor and ceiling. -/
def truncTowardZero (x : ℚ) : Int := if x < 0 then ⌈x⌉ else ⌊x⌋

/-- The scaled integer handed to `setInt16`:
`s < 0 ? s * 0x8000 : s * 0x7fff` after clamping. -/
def scaledSample (v : ℚ) : Int :=
  let s := clampSample v
  if s < 0 then truncRatMul s 32768 else truncRatMul s 32767

/-- The raw 16-bit word stored in the buffer: the integer reduced mod 2^16. -/
def int16ToWord (i : Int) : Nat := (i % 65536).toNat

/-- Reading a 16-bit word back as a signed int16. -/
def wordToInt16 (m : Nat) : Int :=
  if m % 65536 < 32768 then (m % 65536 : Int) else (m % 65536 : Int) - 65536

/-- The byte buffer `floatTo16BitPCM` produces for a list of samples,
two little-endian bytes per sample. -/
def floatTo16BitPCM (samples : List ℚ) : List (Fin 256) :=
  samples.flatMap fun v =>
    let w := int16ToWord (scaledSample v)
    [⟨w % 256, by omega⟩, ⟨w / 256 % 256, by omega⟩]

/-- Decode a little-endian byte buffer back into its int16 values. -/
def decodeInt16LE : List (Fin 256) → List Int
  | lo :: hi :: rest => wordToInt16 (lo.val + 256 * hi.val) :: decodeInt16LE rest
  | _ => []

/-! ## Base64 encoder (base64EncodeAudio)

The JS function builds a binary string from the PCM bytes in 32768-byte
chunks (`String.fromCharCode` over `Uint8Array.subarray`), then encodes
the whole string with `Buffer.from(binary, 'binary').toString('base64')`,
i.e. standard base64 with `=` padding. -/

/-- The character at a position of the standard base64 alphabet. -/
def b64chr (n : Fin 64) : Char :=
  if n.val < 26 then Char.ofNat (65 + n.val)
  else if n.val < 52 then Char.ofNat (97 + (n.val - 26))
  else if n.val < 62 then Char.ofNat (48 + (n.val - 52))
  else if n.val = 62 then '+' else '/'

/-- Inverse lookup for the base64 alphabet. -/
def b64val (c : Char) : Option (Fin 64) :=
  let n := c.toNat
  if h : 65 ≤ n ∧ n ≤ 90 then some ⟨n - 65, by omega⟩
  else if h : 97 ≤ n ∧ n ≤ 122 then some ⟨n - 97 + 26, by omega⟩
  else if h : 48 ≤ n ∧ n ≤ 57 then some ⟨n - 48 + 52, by omega⟩
  else if n = 43 then some ⟨62, by omega⟩
  else if n = 47 then some ⟨63, by omega⟩
  else none

/-- Standard base64 text encoding of a byte buffer, with `=` padding. -/
def b64encodeChars : List (Fin 256) → List Char
  | [] => []
  | [a] =>
    [b64chr ⟨a.val / 4, by have := a.isLt; omega⟩,
     b64chr ⟨a.val % 4 * 16, by omega⟩,
     '=', '=']
  | [a, b] =>
    [b64chr ⟨a.val / 4, by have := a.isLt; omega⟩,
     b64chr ⟨a.val % 4 * 16 + b.val / 16, by have := b.isLt; omega⟩,
     b64chr ⟨b.val % 16 * 4, by omega⟩,
     '=']
  | a :: b :: c :: rest =>
    b64chr ⟨a.val / 4, by have := a.isLt; omega⟩ ::
    b64chr ⟨a.val % 4 * 16 + b.val / 16, by have := b.isLt; omega⟩ ::
    b64chr ⟨b.val % 16 * 4 + c.val / 64, by have := c.isLt; omega⟩ ::
    b64chr ⟨c.val % 64, by omega⟩ ::
    b64encodeChars rest

/-- Standard base64 decoding, as performed by a conforming decoder on the
encoder's output: groups of four characters, the last group possibly
padded with one or two `=`. -/
def b64decodeChars : List Char → Option (List (Fin 256))
  | [] => some []
  | c1 :: c2 :: c3 :: c4 :: rest =>
    match b64val c1, b64val c2 with
    | some v1, some v2 =>
      if c3 = '=' then
        if c4 = '=' ∧ rest = [] then
          some [⟨v1.val * 4 + v2.val / 16, by have := v1.isLt; have := v2.isLt; omega⟩]
        else none
      else
        match b64val c3 with
        | some v3 =>
          if c4 = '=' then
            if rest = [] then
              some [⟨v1.val * 4 + v2.val / 16, by have := v1.isLt; have := v2.isLt; omega⟩,
                    ⟨v2.val % 16 * 16 + v3.val / 4, by have := v3.isLt; omega⟩]
            else none
          else
            match b64val c4 with
            | some v4 =>
              match b64decodeChars rest with
              | some bs =>
                some (⟨v1.val * 4 + v2.val / 16,
                        by have := v1.isLt; have := v2.isLt; omega⟩ ::
                      ⟨v2.val % 16 * 16 + v3.val / 4, by have := v3.isLt; omega⟩ ::
                      ⟨v3.val % 4 * 64 + v4.val, by have := v4.isLt; omega⟩ :: bs)
              | none => none
            | none => none
        | none => none
    | _, _ => none
  | _ => none

/-- The 32768-byte chunking of the JS loop `for (i = 0; i < n; i += chunkSize)`. -/
def chunksOf (n : Nat) (xs : List (Fin 256)) : List (List (Fin 256)) :=
  if _h : n = 0 ∨ xs = [] then []
  else xs.take n :: chunksOf n (xs.drop n)
termination_by xs.length
decreasing_by
  have h1 : xs ≠ [] := fun he => _h (Or.inr he)
  have h2 : n ≠ 0 := fun he => _h (Or.inl he)
  have := List.length_pos.mpr h1
  simp only [List.length_drop]
  omega

/-- The encoder applied to an already-PCM-encoded byte buffer:
the chunks are reassembled into one binary string which is then base64
encoded. -/
def base64EncodeBytes (bytes : List (Fin 256)) : List Char :=
  b64encodeChars ((chunksOf 32768 bytes).flatten)

/-- The full batch path: float samples to PCM16 bytes to base64 text. -/
def base64EncodeAudio (samples : List ℚ) : List Char :=
  base64EncodeBytes (floatTo16BitPCM samples)

/-! ## Periodic chunk extraction (the `setInterval` body in startRecording)

Every ~100 ms the app reads the recording's full byte contents and, iff
the WebSocket is Open and new bytes exist past `lastProcessedSize`, sends
one `audio_data` message with the new slice and advances the counter.
A tick whose read fails behaves exactly like a closed-connection tick:
nothing is sent and the counter is not advanced. -/

/-- One tick of the chunk-send interval.  Returns the chunk sent (if any)
and the updated `lastProcessedSize`. -/
def chunkTick (recActive connOpen : Bool) (full : List (Fin 256))
    (bytesSent : Nat) : Option (List (Fin 256)) × Nat :=
  if recActive && connOpen then
    if bytesSent < full.length then (some (full.drop bytesSent), full.length)
    else (none, bytesSent)
  else (none, bytesSent)

/-- A recording session as seen by the chunk loop: the offset counter and
the chunks emitted so far, in emission order. -/
structure ChunkSession where
  bytesSent : Nat
  sent : List (List (Fin 256))
deriving DecidableEq

/-- A fresh session: counter reset to 0, nothing sent. -/
def sessionStart : ChunkSession := { bytesSent := 0, sent := [] }

/-- Run one tick against a session.  `act` is true when the recording is
live, the connection is Open and the buffer read succeeds. -/
def runTick (s : ChunkSession) (act : Bool) (full : List (Fin 256)) : ChunkSession :=
  match chunkTick true act full s.bytesSent with
  | (some chunk, n) => { bytesSent := n, sent := s.sent ++ [chunk] }
  | (none, n) => { s with bytesSent := n }

/-- Run a whole trace of ticks; each entry carries the tick's activity
flag and the capture buffer contents at that moment. -/
def runTicks (s : ChunkSession) : List (Bool × List (Fin 256)) → ChunkSession
  | [] => s
  | (a, f) :: rest => runTicks (runTick s a f) rest

/-- The capture buffer grows by appending: `full` extends `b`. -/
def growsTo (b full : List (Fin 256)) : Prop := ∃ t, full = b ++ t

/-- The buffer contents at the last tick of a trace (or `b` if none). -/
def finalBuf (b : List (Fin 256)) (trace : List (Bool × List (Fin 256))) :
    List (Fin 256) :=
  (trace.map Prod.snd).getLastD b

/-- Loop invariant: the emitted chunks concatenate to exactly the prefix
of the current capture buffer below the offset counter. -/
def SentInv (s : ChunkSession) (b : List (Fin 256)) : Prop :=
  s.sent.flatten = b.take s.bytesSent ∧ s.bytesSent ≤ b.length

/-! ## Recording controller (startRecording / stopRecording)

The component state: the `isListening` guard flag, the recording ref, the
chunk interval, the offset counter and the metering value.  `stopFails`
models `stopAndUnloadAsync` throwing (the lines after it are skipped, the
catch logs, the finally clause still runs); `startFails` models a device
acquisition error in `startRecording` (caught, listening reset). -/

structure AppState where
  isListening : Bool
  recording : Option Nat
  timerActive : Bool
  lastProcessedSize : Nat
  metering : ℚ
deriving DecidableEq

/-- Model of `stopRecording(resetListening)`: clear the interval first, then (if a
recording exists) await teardown, reset metering, drop the ref and zero
the counter; in a finally clause reset `isListening` iff requested. -/
def stopRecording (s : AppState) (resetListening : Bool) (stopFails : Bool) :
    AppState :=
  let s1 := { s with timerActive := false }
  let s2 :=
    match s1.recording with
    | none => s1
    | some _ =>
      if stopFails then s1
      else { s1 with metering := -160, recording := none, lastProcessedSize := 0 }
  if resetListening then { s2 with isListening := false } else s2

/-- Model of `startRecording()`: bail out when already listening; otherwise set the
guard, stop any stale recording (without resetting the guard), zero the
counter, acquire the device and start the chunk interval.  On an
acquisition error the guard is reset. -/
def startRecording (s : AppState) (newId : Nat) (startFails : Bool) : AppState :=
  if s.isListening then s
  else
    let s1 := { s with isListening := true }
    let s2 := stopRecording s1 false false
    let s3 := { s2 with lastProcessedSize := 0 }
    if startFails then { s3 with isListening := false }
    else { s3 with recording := some newId, timerActive := true }

/-- The observable steps of `stopRecording`, in program order. -/
inductive StopAction where
  | clearTimer
  | awaitTeardown
  | resetStateVars
deriving DecidableEq

/-- The step trace of one `stopRecording` call from state `s`:
`clearInterval` runs synchronously first (when a timer is pending), and
only then is the asynchronous device teardown awaited. -/
def stopTrace (s : AppState) : List StopAction :=
  (if s.timerActive then [StopAction.clearTimer] else []) ++
  (match s.recording with
   | some _ => [StopAction.awaitTeardown, StopAction.resetStateVars]
   | none => [])

/-- A start/stop request, local or inbound over the socket. -/
inductive Request where
  | startReq (newId : Nat)
  | stopReq (reset : Bool)

/-- The app plus the set of capture sessions acquired from the device and
not yet unloaded. -/
structure World where
  app : AppState
  active : List Nat

/-- Execute one request: stop unloads the referenced session; start (when
not already listening) first unloads any stale session, then acquires a
fresh one. -/
def stepRequest (w : World) : Request → World
  | .stopReq reset =>
    { app := stopRecording w.app reset false,
      active :=
        match w.app.recording with
        | some r => w.active.erase r
        | none => w.active }
  | .startReq newId =>
    if w.app.isListening then w
    else
      let activeAfterStop :=
        match w.app.recording with
        | some r => w.active.erase r
        | none => w.active
      { app := startRecording w.app newId false,
        active := activeAfterStop ++ [newId] }

/-- Run a whole interleaving of requests. -/
def runRequests (w : World) : List Request → World
  | [] => w
  | r :: rest => runRequests (stepRequest w r) rest

/-- The mount-time state: not listening, no recording, no timer. -/
def worldInit : World :=
  { app := { isListening := false, recording := none, timerActive := false,
             lastProcessedSize := 0, metering := 0 },
    active := [] }

/-- The device-session invariant: the sessions still loaded are exactly
the one referenced by the controller. -/
def WorldInv (w : World) : Prop := w.active = w.app.recording.toList

/-! ## Metering -/

/-- The value `Math.max(0, (metering + 160) / 160)` from the render body. -/
def normalizedMeter (metering : ℚ) : ℚ := max 0 ((metering + 160) / 160)

/-- Modelled from the spec: `clamp(x, 0, 1)`, the normalisation the spec
ascribes to the client. -/
def clamp01 (x : ℚ) : ℚ := min 1 (max 0 x)

theorem den_cast_pos (s : ℚ) : (0 : ℚ) < (s.den : ℚ) := by
  exact_mod_cast Nat.pos_of_ne_zero s.den_nz

theorem mul_den_cast (s : ℚ) : s * (s.den : ℚ) = (s.num : ℚ) := by
  nth_rewrite 1 [← Rat.num_div_den s]
  exact div_mul_cancel₀ _ (den_cast_pos s).ne'

/-- Computing `truncRatMul` yields truncation toward zero of the exact product. -/
theorem truncRatMul_eq (s : ℚ) (k : Int) :
    truncRatMul s k = truncTowardZero (s * k) := by
  have hden : (0 : ℚ) < (s.den : ℚ) := den_cast_pos s
  have h1 : s * (s.den : ℚ) = (s.num : ℚ) := mul_den_cast s
  have hsk : s * (k : ℚ) = ((s.num * k : Int) : ℚ) / (s.den : ℚ) := by
    rw [eq_div_iff hden.ne']
    push_cast
    rw [← h1]
    ring
  rcases lt_or_le (s.num * k) 0 with hneg | hpos
  · have hlt : s * (k : ℚ) < 0 := by
      rw [hsk]
      apply div_neg_of_neg_of_pos _ hden
      exact_mod_cast hneg
    rw [truncRatMul, truncTowardZero, if_pos hneg, if_pos hlt]
    have hceil : ⌈s * (k : ℚ)⌉ = -⌊-(s * (k : ℚ))⌋ := by
      rw [Int.floor_neg, neg_neg]
    rw [hceil]
    congr 1
    rw [hsk, ← Rat.floor_intCast_div_natCast (-(s.num * k)) s.den]
    congr 1
    push_cast
    ring
  · have hge : ¬ s * (k : ℚ) < 0 := by
      rw [hsk]
      push_neg
      apply div_nonneg _ hden.le
      exact_mod_cast hpos
    rw [truncRatMul, truncTowardZero, if_neg (not_lt.mpr hpos), if_neg hge]
    rw [hsk, ← Rat.floor_intCast_div_natCast (s.num * k) s.den]

theorem num_le_of_le_one (s : ℚ) (h : s ≤ 1) : s.num ≤ (s.den : Int) := by
  have : (s.num : ℚ) ≤ (s.den : ℚ) := by
    rw [← mul_den_cast s]
    calc s * (s.den : ℚ) ≤ 1 * (s.den : ℚ) :=
          mul_le_mul_of_nonneg_right h (den_cast_pos s).le
      _ = (s.den : ℚ) := one_mul _
  exact_mod_cast this

theorem neg_den_le_num (s : ℚ) (h : -1 ≤ s) : -(s.den : Int) ≤ s.num := by
  have : -(s.den : ℚ) ≤ (s.num : ℚ) := by
    rw [← mul_den_cast s]
    have hm := mul_le_mul_of_nonneg_right h (den_cast_pos s).le
    linarith
  exact_mod_cast this

/-- For a clamped sample, the truncated product stays within `[-k, k]`. -/
theorem truncRatMul_bounds (s : ℚ) (k : Int) (hk : 0 ≤ k)
    (h1 : -1 ≤ s) (h2 : s ≤ 1) :
    -k ≤ truncRatMul s k ∧ truncRatMul s k ≤ k := by
  have hd : (0 : Int) < (s.den : Int) := by exact_mod_cast Nat.pos_of_ne_zero s.den_nz
  have hnle : s.num ≤ (s.den : Int) := num_le_of_le_one s h2
  have hnge : -(s.den : Int) ≤ s.num := neg_den_le_num s h1
  have hub : s.num * k ≤ (s.den : Int) * k := mul_le_mul_of_nonneg_right hnle hk
  have hlb : -((s.den : Int) * k) ≤ s.num * k := by
    calc -((s.den : Int) * k) = -(s.den : Int) * k := by ring
      _ ≤ s.num * k := mul_le_mul_of_nonneg_right hnge hk
  have hcancel : (s.den : Int) * k / (s.den : Int) = k := by
    rw [mul_comm]
    exact Int.mul_ediv_cancel k hd.ne'
  rw [truncRatMul]
  split
  · rename_i hneg
    constructor
    · have hle : -(s.num * k) ≤ (s.den : Int) * k := by omega
      have := Int.ediv_le_ediv hd hle
      rw [hcancel] at this
      omega
    · have : 0 ≤ -(s.num * k) / (s.den : Int) :=
        Int.ediv_nonneg (by omega) hd.le
      omega
  · constructor
    · have : 0 ≤ s.num * k / (s.den : Int) :=
        Int.ediv_nonneg (by omega) hd.le
      omega
    · have := Int.ediv_le_ediv hd hub
      rwa [hcancel] at this

/-- For a nonpositive sample the truncated product is nonpositive. -/
theorem truncRatMul_nonpos (s : ℚ) (k : Int) (hs : s ≤ 0) (hk : 0 ≤ k) :
    truncRatMul s k ≤ 0 := by
  have hd : (0 : Int) < (s.den : Int) := by exact_mod_cast Nat.pos_of_ne_zero s.den_nz
  have hn : s.num ≤ 0 := Rat.num_nonpos.mpr hs
  have ha : s.num * k ≤ 0 := mul_nonpos_of_nonpos_of_nonneg hn hk
  rw [truncRatMul]
  split
  · rename_i hneg
    have : 0 ≤ -(s.num * k) / (s.den : Int) := Int.ediv_nonneg (by omega) hd.le
    omega
  · rename_i hge
    have hz : s.num * k = 0 := by omega
    simp [hz]

theorem clampSample_le_one (v : ℚ) : clampSample v ≤ 1 :=
  max_le (by norm_num) (min_le_left _ _)

theorem neg_one_le_clampSample (v : ℚ) : -1 ≤ clampSample v := le_max_left _ _

/-- The scaled, truncated sample always fits in a signed 16-bit integer:
clamping prevents any wraparound in `setInt16`. -/
theorem scaledSample_bounds (v : ℚ) :
    -32768 ≤ scaledSample v ∧ scaledSample v ≤ 32767 := by
  have h1 := neg_one_le_clampSample v
  have h2 := clampSample_le_one v
  rw [scaledSample]
  split
  · rename_i hneg
    have hb := truncRatMul_bounds (clampSample v) 32768 (by norm_num) h1 h2
    have hnp := truncRatMul_nonpos (clampSample v) 32768 hneg.le (by norm_num)
    omega
  · have hb := truncRatMul_bounds (clampSample v) 32767 (by norm_num) h1 h2
    omega

/-- Storing then reading a 16-bit word is the identity on `[-32768, 32767]`. -/
theorem wordToInt16_int16ToWord (e : Int) (h1 : -32768 ≤ e) (h2 : e ≤ 32767) :
    wordToInt16 (int16ToWord e) = e := by
  rw [wordToInt16, int16ToWord]
  omega

theorem int16ToWord_lt (e : Int) : int16ToWord e < 65536 := by
  rw [int16ToWord]
  omega

/-- Decoding the little-endian PCM16 buffer recovers the scaled samples. -/
theorem decodeInt16LE_floatTo16BitPCM (samples : List ℚ) :
    decodeInt16LE (floatTo16BitPCM samples) = samples.map scaledSample := by
  induction samples with
  | nil => rfl
  | cons v rest ih =>
    have hb := scaledSample_bounds v
    have hw := int16ToWord_lt (scaledSample v)
    have hbytes :
        int16ToWord (scaledSample v) % 256 +
          256 * (int16ToWord (scaledSample v) / 256 % 256) =
        int16ToWord (scaledSample v) := by omega
    simp only [floatTo16BitPCM, List.flatMap_cons] at ih ⊢
    simp only [List.cons_append, List.nil_append, decodeInt16LE, List.map_cons]
    rw [hbytes, wordToInt16_int16ToWord _ hb.1 hb.2]
    exact congrArg _ ih

/-! ### Base64 lemmas -/

theorem b64val_b64chr : ∀ n : Fin 64, b64val (b64chr n) = some n := by decide

theorem b64chr_ne_pad : ∀ n : Fin 64, b64chr n ≠ '=' := by decide

/-- Decoding inverts encoding on every byte list. -/
theorem b64_roundtrip :
    ∀ xs : List (Fin 256), b64decodeChars (b64encodeChars xs) = some xs
  | [] => rfl
  | [a] => by
    have ha := a.isLt
    simp only [b64encodeChars, b64decodeChars, b64val_b64chr]
    norm_num [Fin.ext_iff, Fin.val_mk]
    omega
  | [a, b] => by
    have ha := a.isLt
    have hb := b.isLt
    simp only [b64encodeChars, b64decodeChars, b64val_b64chr,
      if_neg (b64chr_ne_pad _)]
    norm_num [Fin.ext_iff, Fin.val_mk]
    omega
  | a :: b :: c :: d :: rest => by
    have ha := a.isLt
    have hb := b.isLt
    have hc := c.isLt
    have ih := b64_roundtrip (d :: rest)
    simp only [b64encodeChars] at ih ⊢
    simp only [b64decodeChars, b64val_b64chr, if_neg (b64chr_ne_pad _)]
    rw [ih]
    simp only [Option.some.injEq, List.cons.injEq, and_true, and_self,
      Fin.ext_iff, Fin.val_mk]
    omega
  | [a, b, c] => by
    have ha := a.isLt
    have hb := b.isLt
    have hc := c.isLt
    simp only [b64encodeChars, b64decodeChars, b64val_b64chr,
      if_neg (b64chr_ne_pad _)]
    norm_num [Fin.ext_iff, Fin.val_mk]
    omega

/-- Reassembling the 32768-byte chunks gives back the original buffer. -/
theorem chunksOf_flatten (n : Nat) (hn : n ≠ 0) :
    ∀ xs : List (Fin 256), (chunksOf n xs).flatten = xs
  | xs => by
    by_cases he : xs = []
    · subst he
      rw [chunksOf]
      simp
    · have hstep : chunksOf n xs = xs.take n :: chunksOf n (xs.drop n) := by
        rw [chunksOf]
        exact dif_neg (fun hor => hor.elim hn he)
      rw [hstep, List.flatten_cons, chunksOf_flatten n hn (xs.drop n),
        List.take_append_drop]
termination_by xs => xs.length
decreasing_by
  have := List.length_pos.mpr he
  show (List.drop n xs).length < xs.length
  simp only [List.length_drop]
  omega

/-! ### Chunk loop lemmas -/

theorem sentInv_sessionStart : SentInv sessionStart [] :=
  ⟨rfl, Nat.le_refl 0⟩

theorem runTick_eq (s : ChunkSession) (a : Bool) (full : List (Fin 256)) :
    runTick s a full =
      if a = true ∧ s.bytesSent < full.length then
        { bytesSent := full.length, sent := s.sent ++ [full.drop s.bytesSent] }
      else s := by
  rw [runTick, chunkTick]
  cases a <;> by_cases hlt : s.bytesSent < full.length <;>
    simp [hlt]

theorem sentInv_runTick (s : ChunkSession) (b full : List (Fin 256)) (a : Bool)
    (hinv : SentInv s b) (hg : growsTo b full) :
    SentInv (runTick s a full) full := by
  obtain ⟨t, rfl⟩ := hg
  obtain ⟨hjoin, hle⟩ := hinv
  have hskip : SentInv s (b ++ t) := by
    refine ⟨?_, ?_⟩
    · rw [hjoin, List.take_append_of_le_length hle]
    · rw [List.length_append]
      omega
  rw [runTick_eq]
  by_cases hc : a = true ∧ s.bytesSent < (b ++ t).length
  · rw [if_pos hc]
    refine ⟨?_, Nat.le_refl _⟩
    have hjoin2 : s.sent.flatten = (b ++ t).take s.bytesSent := by
      rw [hjoin, List.take_append_of_le_length hle]
    show (s.sent ++ [(b ++ t).drop s.bytesSent]).flatten =
      (b ++ t).take (b ++ t).length
    rw [List.flatten_append, List.flatten_cons, List.flatten_nil,
      List.append_nil, hjoin2, List.take_append_drop, List.take_length]
  · rw [if_neg hc]
    exact hskip

theorem runTick_bytesSent_le (s : ChunkSession) (a : Bool)
    (full : List (Fin 256)) : s.bytesSent ≤ (runTick s a full).bytesSent := by
  rw [runTick_eq]
  by_cases hc : a = true ∧ s.bytesSent < full.length
  · rw [if_pos hc]
    exact Nat.le_of_lt hc.2
  · rw [if_neg hc]

theorem runTick_active_flushes (s : ChunkSession) (b full : List (Fin 256))
    (hinv : SentInv s b) (hg : growsTo b full) :
    (runTick s true full).bytesSent = full.length := by
  obtain ⟨t, rfl⟩ := hg
  have hle : s.bytesSent ≤ (b ++ t).length := by
    have := hinv.2
    rw [List.length_append]
    omega
  rw [runTick_eq]
  by_cases hc : true = true ∧ s.bytesSent < (b ++ t).length
  · rw [if_pos hc]
  · rw [if_neg hc]
    have hge : ¬ s.bytesSent < (b ++ t).length := fun h => hc ⟨rfl, h⟩
    omega

theorem runTicks_bytesSent_le (trace : List (Bool × List (Fin 256))) :
    ∀ s : ChunkSession, s.bytesSent ≤ (runTicks s trace).bytesSent := by
  induction trace with
  | nil => intro s; exact Nat.le_refl _
  | cons p rest ih =>
    intro s
    obtain ⟨a, f⟩ := p
    exact Nat.le_trans (runTick_bytesSent_le s a f) (ih (runTick s a f))

theorem runTicks_append (l1 l2 : List (Bool × List (Fin 256))) :
    ∀ s : ChunkSession, runTicks s (l1 ++ l2) = runTicks (runTicks s l1) l2 := by
  induction l1 with
  | nil => intro s; rfl
  | cons p rest ih =>
    intro s
    obtain ⟨a, f⟩ := p
    simp only [List.cons_append, runTicks]
    exact ih (runTick s a f)

/-- Invariant preservation over a whole trace, plus: an active final tick
flushes the counter to the final buffer length. -/
theorem sentInv_runTicks (trace : List (Bool × List (Fin 256))) :
    ∀ (s : ChunkSession) (b : List (Fin 256)), SentInv s b →
      List.Chain growsTo b (trace.map Prod.snd) →
      SentInv (runTicks s trace) (finalBuf b trace) ∧
      (∀ hne : trace ≠ [], (trace.getLast hne).1 = true →
        (runTicks s trace).bytesSent = (finalBuf b trace).length) := by
  induction trace with
  | nil =>
    intro s b hinv _
    exact ⟨hinv, fun hne _ => absurd rfl hne⟩
  | cons p rest ih =>
    intro s b hinv hchain
    obtain ⟨a, f⟩ := p
    rw [List.map_cons] at hchain
    cases hchain with
    | cons hbf hrest =>
      have hstep := sentInv_runTick s b f a hinv hbf
      have hfb : finalBuf b ((a, f) :: rest) = finalBuf f rest := by
        rw [finalBuf, finalBuf, List.map_cons, List.getLastD_cons]
      rw [hfb]
      have hmain := ih (runTick s a f) f hstep hrest
      refine ⟨hmain.1, ?_⟩
      intro hne hlast
      by_cases hre : rest = []
      · subst hre
        have ha : a = true := hlast
        subst ha
        show (runTick s true f).bytesSent = (finalBuf f []).length
        rw [finalBuf]
        exact runTick_active_flushes s b f hinv hbf
      · have hlast' : (rest.getLast hre).1 = true := by
          rwa [List.getLast_cons hre] at hlast
        exact hmain.2 hre hlast'

/-! ### Recording controller lemmas -/

theorem worldInv_init : WorldInv worldInit := rfl

theorem stopRecording_recording_none (s : AppState) (r : Bool) :
    (stopRecording s r false).recording = none := by
  cases hr : s.recording <;> cases r <;> simp [stopRecording, hr]

theorem startRecording_recording (s : AppState) (id : Nat)
    (h : s.isListening = false) :
    (startRecording s id false).recording = some id := by
  simp [startRecording, h]

theorem worldInv_step (w : World) (r : Request) (h : WorldInv w) :
    WorldInv (stepRequest w r) := by
  cases r with
  | stopReq reset =>
    show _ = _
    rw [stepRequest]
    cases hr : w.app.recording with
    | none =>
      simp only [hr]
      rw [WorldInv, hr] at h
      simp only [Option.toList] at h
      rw [stopRecording_recording_none]
      simpa using h
    | some r0 =>
      simp only [hr]
      rw [WorldInv, hr] at h
      simp only [Option.toList] at h
      rw [stopRecording_recording_none]
      simp [h]
  | startReq newId =>
    rw [stepRequest]
    by_cases hl : w.app.isListening
    · rw [if_pos hl]
      exact h
    · rw [if_neg hl]
      show _ = _
      rw [startRecording_recording w.app newId (by simpa using hl)]
      rw [WorldInv] at h
      cases hr : w.app.recording with
      | none =>
        rw [hr] at h
        simp only [hr]
        simp only [Option.toList] at h ⊢
        simp [h]
      | some r0 =>
        rw [hr] at h
        simp only [hr]
        simp only [Option.toList] at h ⊢
        simp [h]

theorem worldInv_runRequests (reqs : List Request) :
    ∀ w : World, WorldInv w → WorldInv (runRequests w reqs) := by
  induction reqs with
  | nil => intro w h; exact h
  | cons r rest ih =>
    intro w h
    exact ih (stepRequest w r) (worldInv_step w r h)

theorem worldInv_active_le_one (w : World) (h : WorldInv w) :
    w.active.length ≤ 1 := by
  rw [h]
  cases w.app.recording <;> simp [Option.toList]


/-! ## Claim theorems -/

/-- C1: during an active recording session, a chunk tick with the
connection not Open sends nothing and changes nothing; with the
connection Open, writing `delta = full.drop bytesSent`, an empty delta
sends nothing, and a non-empty delta sends exactly one `audio_data`
chunk equal to the delta and sets `bytesSent` to `full.length`. -/
theorem chunkTick_spec (conn : Bool) (full : List (Fin 256)) (n : Nat) :
    (conn = false → chunkTick true conn full n = (none, n)) ∧
    (conn = true → full.drop n = [] → chunkTick true conn full n = (none, n)) ∧
    (conn = true → full.drop n ≠ [] →
      chunkTick true conn full n = (some (full.drop n), full.length)) := by
  refine ⟨?_, ?_, ?_⟩
  · intro hc
    subst hc
    rfl
  · intro hc hd
    subst hc
    rw [List.drop_eq_nil_iff] at hd
    rw [chunkTick]
    simp only [Bool.and_self, if_true]
    rw [if_neg (by omega)]
  · intro hc hd
    subst hc
    rw [Ne, List.drop_eq_nil_iff, not_le] at hd
    rw [chunkTick]
    simp only [Bool.and_self, if_true]
    rw [if_pos hd]

theorem chunkTick_spec_witness :
    chunkTick true false [0] 0 = (none, 0) ∧
    chunkTick true true [] 0 = (none, 0) ∧
    chunkTick true true [0] 0 = (some [0], 1) :=
  ⟨(chunkTick_spec false [0] 0).1 rfl,
   (chunkTick_spec true [] 0).2.1 rfl rfl,
   (chunkTick_spec true [0] 0).2.2 rfl (by decide)⟩

/-- C2 (counterexample): `floatTo16BitPCM [0.5, -1, 1]` decodes to int16
values `[16383, -32768, 32767]`, not `[16384, -32768, 32767]` as claimed:
`setInt16` truncates `0.5 * 0x7fff = 16383.5` toward zero instead of
rounding it. -/
theorem pcm_half_counterexample :
    decodeInt16LE (floatTo16BitPCM [mkRat 1 2, -1, 1]) = [16383, -32768, 32767] ∧
    decodeInt16LE (floatTo16BitPCM [mkRat 1 2, -1, 1]) ≠ [16384, -32768, 32767] := by
  decide

/-- C2 (amended): each sample is clamped to [-1, 1] and then stored as the
little-endian 16-bit signed integer obtained by truncating toward zero
`s * 32768` when `s < 0` and `s * 32767` when `s ≥ 0`; the stored bytes
decode back to exactly those values, which always fit in int16. -/
theorem floatTo16BitPCM_spec (samples : List ℚ) :
    decodeInt16LE (floatTo16BitPCM samples) = samples.map scaledSample ∧
    (∀ v ∈ samples,
      scaledSample v =
        truncTowardZero
          (if clampSample v < 0 then clampSample v * 32768
           else clampSample v * 32767) ∧
      -32768 ≤ scaledSample v ∧ scaledSample v ≤ 32767) := by
  refine ⟨decodeInt16LE_floatTo16BitPCM samples, ?_⟩
  intro v _
  refine ⟨?_, scaledSample_bounds v⟩
  by_cases hs : clampSample v < 0
  · simp only [scaledSample, if_pos hs, truncRatMul_eq]
    norm_cast
  · simp only [scaledSample, if_neg hs, truncRatMul_eq]
    norm_cast

theorem floatTo16BitPCM_spec_witness :
    decodeInt16LE (floatTo16BitPCM [mkRat 1 2]) = [mkRat 1 2].map scaledSample ∧
    (scaledSample (mkRat 1 2) =
        truncTowardZero
          (if clampSample (mkRat 1 2) < 0 then clampSample (mkRat 1 2) * 32768
           else clampSample (mkRat 1 2) * 32767) ∧
      -32768 ≤ scaledSample (mkRat 1 2) ∧ scaledSample (mkRat 1 2) ≤ 32767) :=
  ⟨(floatTo16BitPCM_spec [mkRat 1 2]).1,
   (floatTo16BitPCM_spec [mkRat 1 2]).2 (mkRat 1 2) (List.mem_singleton.mpr rfl)⟩

/-- C3: over any session whose capture buffer grows by appending, the
chunks emitted by the tick loop, concatenated in emission order, equal
the full captured byte stream once a final tick runs with the connection
open — no gaps, no overlaps. -/
theorem audio_chunks_reproduce (trace : List (Bool × List (Fin 256)))
    (hchain : List.Chain growsTo [] (trace.map Prod.snd))
    (hne : trace ≠ []) (hlast : (trace.getLast hne).1 = true) :
    (runTicks sessionStart trace).sent.flatten = finalBuf [] trace := by
  have h := sentInv_runTicks trace sessionStart [] sentInv_sessionStart hchain
  have h2 := h.2 hne hlast
  have h1 := h.1.1
  rw [h1, h2, List.take_length]

theorem audio_chunks_reproduce_witness :
    (runTicks sessionStart [(true, [5]), (true, [5, 7])]).sent.flatten =
      finalBuf [] [(true, [5]), (true, [5, 7])] :=
  audio_chunks_reproduce [(true, [5]), (true, [5, 7])]
    (List.Chain.cons ⟨[5], rfl⟩ (List.Chain.cons ⟨[7], rfl⟩ List.Chain.nil))
    (by simp) rfl

/-- C4: the offset counter starts at 0, never decreases along any tick
trace, and never exceeds the current capture buffer size (which equals
its size at the last successful chunk send, since the counter only moves
on a send). -/
theorem bytesSent_monotone (trace : List (Bool × List (Fin 256)))
    (hchain : List.Chain growsTo [] (trace.map Prod.snd)) :
    sessionStart.bytesSent = 0 ∧
    (∀ pre suf, trace = pre ++ suf →
      (runTicks sessionStart pre).bytesSent ≤
        (runTicks sessionStart trace).bytesSent) ∧
    (runTicks sessionStart trace).bytesSent ≤ (finalBuf [] trace).length := by
  refine ⟨rfl, ?_, ?_⟩
  · intro pre suf hsplit
    subst hsplit
    rw [runTicks_append]
    exact runTicks_bytesSent_le suf _
  · exact (sentInv_runTicks trace sessionStart [] sentInv_sessionStart hchain).1.2

theorem bytesSent_monotone_witness :
    sessionStart.bytesSent = 0 ∧
    (∀ pre suf, [((true : Bool), ([5] : List (Fin 256)))] = pre ++ suf →
      (runTicks sessionStart pre).bytesSent ≤
        (runTicks sessionStart [(true, [5])]).bytesSent) ∧
    (runTicks sessionStart [(true, [5])]).bytesSent ≤
      (finalBuf [] [(true, [5])]).length :=
  bytesSent_monotone [(true, [5])]
    (List.Chain.cons ⟨[5], rfl⟩ List.Chain.nil)

/-- C5: `startRecording` invoked while the listening guard is set is a
no-op returning the state unchanged (no new session, counter untouched),
and under any interleaving of start/stop requests at most one capture
session is loaded at any instant. -/
theorem start_noop_when_listening (s : AppState) (id : Nat) (f : Bool)
    (h : s.isListening = true) :
    startRecording s id f = s ∧
    (∀ reqs : List Request, (runRequests worldInit reqs).active.length ≤ 1) := by
  constructor
  · rw [startRecording, if_pos h]
  · intro reqs
    exact worldInv_active_le_one _ (worldInv_runRequests reqs worldInit worldInv_init)

theorem start_noop_when_listening_witness :
    startRecording ⟨true, none, false, 0, 0⟩ 1 false = ⟨true, none, false, 0, 0⟩ ∧
    (∀ reqs : List Request, (runRequests worldInit reqs).active.length ≤ 1) :=
  start_noop_when_listening ⟨true, none, false, 0, 0⟩ 1 false rfl

/-- C6: in the step trace of every `stopRecording` call, the synchronous
`clearInterval` precedes every awaited device-teardown step, so no chunk
tick can fire against a session that has begun teardown. -/
theorem stop_cancels_timer_first (s : AppState) (i j : Nat)
    (hi : (stopTrace s)[i]? = some StopAction.clearTimer)
    (hj : (stopTrace s)[j]? = some StopAction.awaitTeardown) : i < j := by
  have hlen : (stopTrace s).length ≤ 3 := by
    rw [stopTrace]
    cases s.timerActive <;> cases s.recording <;> simp
  have hi3 : i < 3 := by
    by_contra hc
    push_neg at hc
    rw [List.getElem?_eq_none (le_trans hlen hc)] at hi
    exact absurd hi (by simp)
  have hj3 : j < 3 := by
    by_contra hc
    push_neg at hc
    rw [List.getElem?_eq_none (le_trans hlen hc)] at hj
    exact absurd hj (by simp)
  rw [stopTrace] at hi hj
  cases ht : s.timerActive <;> cases hr : s.recording <;>
    rw [ht, hr] at hi hj <;>
    interval_cases i <;> interval_cases j <;> simp_all

theorem stop_cancels_timer_first_witness : (0 : Nat) < 1 :=
  stop_cancels_timer_first ⟨true, some 0, true, 3, 0⟩ 0 1 (by decide) (by decide)

/-- C7: `stopRecording` clears the listening flag iff `resetListening` is
true (leaving it unchanged otherwise), always clears the timer, and tears
the session down when no error occurs — all of this holding whether or
not the teardown step throws. -/
theorem stop_reset_semantics (s : AppState) (r f : Bool) :
    (stopRecording s r f).timerActive = false ∧
    (stopRecording s r f).isListening = (if r then false else s.isListening) ∧
    (stopRecording s r f).recording = (if f then s.recording else none) ∧
    (stopRecording s r f).lastProcessedSize =
      (if f = true ∨ s.recording = none then s.lastProcessedSize else 0) := by
  cases hr : s.recording <;> cases r <;> cases f <;>
    simp [stopRecording, hr]

/-- C8 (counterexample): the rendered metering level is
`Math.max(0, (db + 160) / 160)` with no upper clamp: at `db = 160` it is
2, while `clamp((db+160)/160, 0, 1)` is 1, so the claimed normalisation
to [0, 1] fails. -/
theorem normalizedMeter_counterexample :
    normalizedMeter 160 = 2 ∧ clamp01 ((160 + 160) / 160) = 1 ∧
    ¬ normalizedMeter 160 ≤ 1 := by
  refine ⟨?_, ?_, ?_⟩ <;> norm_num [normalizedMeter, clamp01]

/-- C8 (amended): the displayed level is `max 0 ((db + 160) / 160)`; it is
always nonnegative, and for the decibel range `db ≤ 0` it agrees with
`clamp((db+160)/160, 0, 1)` and lies in [0, 1]. -/
theorem normalizedMeter_spec (db : ℚ) :
    0 ≤ normalizedMeter db ∧
    (db ≤ 0 →
      normalizedMeter db = clamp01 ((db + 160) / 160) ∧ normalizedMeter db ≤ 1) := by
  constructor
  · exact le_max_left 0 _
  · intro hdb
    have hx : (db + 160) / 160 ≤ 1 := by
      rw [div_le_one (by norm_num)]
      linarith
    have hle : normalizedMeter db ≤ 1 := max_le (by norm_num) hx
    exact ⟨(min_eq_right hle).symm, hle⟩

theorem normalizedMeter_spec_witness :
    0 ≤ normalizedMeter 0 ∧
    (normalizedMeter 0 = clamp01 ((0 + 160) / 160) ∧ normalizedMeter 0 ≤ 1) :=
  ⟨(normalizedMeter_spec 0).1, (normalizedMeter_spec 0).2 (le_refl 0)⟩

/-- C9: for every byte buffer — empty or crossing the 32768-byte internal
chunking boundary — base64 encoding round-trips byte-exactly: decoding
the encoded output restores the buffer. -/
theorem base64_roundtrip_exact (x : List (Fin 256)) :
    b64decodeChars (base64EncodeBytes x) = some x := by
  rw [base64EncodeBytes, chunksOf_flatten 32768 (by norm_num) x]
  exact b64_roundtrip x

/-- C10: stopping with no active session completes without error: the
pending timer is still cleared, no teardown step occurs, the listening
flag obeys `resetListening`, and the offset counter is left unchanged. -/
theorem stop_no_session (s : AppState) (r f : Bool) (h : s.recording = none) :
    stopRecording s r f =
      { s with timerActive := false,
               isListening := if r then false else s.isListening } ∧
    StopAction.awaitTeardown ∉ stopTrace s := by
  constructor
  · cases r <;> simp [stopRecording, h]
  · rw [stopTrace, h]
    cases s.timerActive <;> simp

theorem stop_no_session_witness :
    stopRecording ⟨true, none, true, 5, 0⟩ true false =
      { isListening := false, recording := none, timerActive := false,
        lastProcessedSize := 5, metering := 0 } ∧
    StopAction.awaitTeardown ∉ stopTrace ⟨true, none, true, 5, 0⟩ :=
  stop_no_session ⟨true, none, true, 5, 0⟩ true false rfl

end Sonus
